import Mathlib

/-!
Verification development for the `vscode-browser-preview` webview application.

The repository's source under `src/` consists of the single file
`src/src/App.tsx` (the Controller).  The protocol-multiplexing `Connection`
class that `App.tsx` imports from `./connection` is not part of the source
tree, so it is modelled here from the specification (spec.md, sections 3 to 7);
every definition obtained that way carries a doc comment starting with
`Modelled from the spec:`.  The Controller-level definitions are translated
directly from `src/src/App.tsx`.

JavaScript numbers are modelled as rationals (`ℚ`), `Math.floor` as `Int.floor`.
-/

set_option maxHeartbeats 1000000

section ConnectionModel

variable {α : Type}

/-- Modelled from the spec: the inbound wire-message shape delivered by the
Transport (spec section 6): optional correlation id, optional method name,
optional result, error and params payloads.  The payload type is the opaque
parameter `α`, since the core treats payloads as opaque. -/
structure InMsg (α : Type) where
  id : Option Nat
  method : Option String
  result : Option α
  error : Option α
  params : Option α
deriving DecidableEq

/-- Modelled from the spec: one bookkeeping record of the pending-call table
(spec section 3, Pending Call): the ordinal of the `send` call that created it
and its correlation id.  The resolve/reject callbacks are represented by the
settlement events recorded in the observable log. -/
structure PendingCall where
  callIdx : Nat
  id : Nat
deriving DecidableEq

/-- Modelled from the spec: the external stimuli that drive a Connection
(spec sections 4 and 5): `send`, `on` (handler callbacks identified by a
numeric tag), `setLoggingMode`, delivery of one inbound Transport message, and
Transport termination. -/
inductive ConnStep (α : Type) where
  | send (method : String) (params : Option α)
  | on (method : String) (tag : Nat)
  | setLoggingMode (b : Bool)
  | inbound (m : InMsg α)
  | close
deriving DecidableEq

/-- Observable occurrences produced by the Connection: outbound writes,
promise settlements (resolve, reject-with-error-payload, reject-with-
connection-closed-error) and handler invocations.  Settlements name the
ordinal of the originating `send` call, so that each call's promise can be
tracked. -/
inductive ObsEvent (α : Type) where
  | sent (callIdx : Nat) (id : Nat) (method : String) (params : Option α)
  | resolved (callIdx : Nat) (id : Nat) (result : Option α)
  | rejectedErr (callIdx : Nat) (id : Nat) (error : α)
  | rejectedClosed (callIdx : Nat) (id : Option Nat)
  | invoked (tag : Nat) (method : String) (params : Option α)
deriving DecidableEq

/-- Modelled from the spec: the observable part of the Connection state —
the next correlation id, the number of `send` calls so far, the pending-call
table, the handler registry (flat, in registration order), the lifecycle flag
(`closed`), the history of id assignments (most recent first) and the
chronological log of observable events. -/
structure ConnObs (α : Type) where
  nextId : Nat
  nCalls : Nat
  pending : List PendingCall
  handlers : List (String × Nat)
  closed : Bool
  assigned : List (Nat × Nat)
  obsLog : List (ObsEvent α)
deriving DecidableEq

/-- Modelled from the spec: the full Connection state: the observable part
plus the process-wide logging flag and the diagnostic trace sink, which the
logging flag gates (spec section 3, Logging Mode). -/
structure ConnState (α : Type) extends ConnObs α where
  logging : Bool
  traceLog : List (ConnStep α)

/-- Remove the first pending call carrying correlation id `i`, returning it
together with the remaining table; `none` when no pending call matches. -/
def removeById : List PendingCall → Nat → Option (PendingCall × List PendingCall)
  | [], _ => none
  | pc :: rest, i =>
    if pc.id = i then some (pc, rest)
    else
      match removeById rest i with
      | none => none
      | some (q, rest') => some (q, pc :: rest')

/-- Handler fan-out for one event notification: every handler registered for
the method, in registration order, once per registration (spec section 4.1,
inbound classification step 3). -/
def dispatchEvents (handlers : List (String × Nat)) (meth : String) (p : Option α) :
    List (ObsEvent α) :=
  (handlers.filter (fun a => a.1 == meth)).map (fun a => ObsEvent.invoked a.2 meth p)

/-- Modelled from the spec: the observable transition of the Connection on one
step (spec sections 4.1, 4.1 inbound classification, and the Open/Closed state
machine).  `send` on an open connection allocates the next id, registers a
pending call and writes the message; on a closed connection it fails fast.
An inbound message carrying an id settles the matching pending call (resolve
without error field, reject with it) or is discarded; an id-less message with
a method name fans out to the registered handlers; anything else is discarded.
`close` force-rejects every pending call with a connection-closed error. -/
def pstep (s : ConnObs α) : ConnStep α → ConnObs α
  | ConnStep.send meth p =>
    if s.closed then
      { s with nCalls := s.nCalls + 1,
               obsLog := s.obsLog ++ [ObsEvent.rejectedClosed s.nCalls none] }
    else
      { s with nextId := s.nextId + 1,
               nCalls := s.nCalls + 1,
               pending := s.pending ++ [⟨s.nCalls, s.nextId⟩],
               assigned := (s.nCalls, s.nextId) :: s.assigned,
               obsLog := s.obsLog ++ [ObsEvent.sent s.nCalls s.nextId meth p] }
  | ConnStep.on meth tag => { s with handlers := s.handlers ++ [(meth, tag)] }
  | ConnStep.setLoggingMode _ => s
  | ConnStep.inbound m =>
    if s.closed then s
    else
      match m.id with
      | some i =>
        match removeById s.pending i with
        | some (pc, rest) =>
          match m.error with
          | none =>
            { s with pending := rest,
                     obsLog := s.obsLog ++ [ObsEvent.resolved pc.callIdx i m.result] }
          | some e =>
            { s with pending := rest,
                     obsLog := s.obsLog ++ [ObsEvent.rejectedErr pc.callIdx i e] }
        | none => s
      | none =>
        match m.method with
        | some meth => { s with obsLog := s.obsLog ++ dispatchEvents s.handlers meth m.params }
        | none => s
  | ConnStep.close =>
    if s.closed then s
    else
      { s with closed := true,
               pending := [],
               obsLog := s.obsLog
                 ++ s.pending.map (fun pc => ObsEvent.rejectedClosed pc.callIdx (some pc.id)) }

/-- Modelled from the spec: the full transition: the observable part follows
`pstep`; the logging flag changes only on `setLoggingMode`; when logging is
enabled the raw step is mirrored to the diagnostic trace sink (spec section 3,
Logging Mode, and section 4.1 step 1). -/
def connStep (s : ConnState α) (e : ConnStep α) : ConnState α :=
  { toConnObs := pstep s.toConnObs e,
    logging := match e with | ConnStep.setLoggingMode b => b | _ => s.logging,
    traceLog := if s.logging then s.traceLog ++ [e] else s.traceLog }

/-- The freshly constructed Connection: open, no calls, no handlers, logging
off. -/
def connInit (α : Type) : ConnState α :=
  { nextId := 0, nCalls := 0, pending := [], handlers := [], closed := false,
    assigned := [], obsLog := [], logging := false, traceLog := [] }

/-- Run a Connection from construction through a whole stimulus trace. -/
def connRun (tr : List (ConnStep α)) : ConnState α :=
  tr.foldl connStep (connInit α)

/-- Number of settlement events recorded for the call with ordinal `c`. -/
def settleOf (c : Nat) : ObsEvent α → Bool
  | ObsEvent.resolved c' _ _ => c' == c
  | ObsEvent.rejectedErr c' _ _ => c' == c
  | ObsEvent.rejectedClosed c' _ => c' == c
  | _ => false

def settleCount (log : List (ObsEvent α)) (c : Nat) : Nat :=
  (log.filter (settleOf c)).length

/-- Number of pending-table entries for the call with ordinal `c`. -/
def pendCount (p : List PendingCall) (c : Nat) : Nat :=
  (p.filter (fun pc => pc.callIdx == c)).length

/-- The correlation id assigned to the `send` call with ordinal `c`, if any. -/
def lookupAssigned (s : ConnObs α) (c : Nat) : Option Nat :=
  (s.assigned.find? (fun a => a.1 == c)).map (fun a => a.2)

/-- Drop the `setLoggingMode` steps of a stimulus trace. -/
def eraseLogging : List (ConnStep α) → List (ConnStep α) :=
  List.filter (fun e => match e with | ConnStep.setLoggingMode _ => false | _ => true)

/-- The `on` registrations of a stimulus trace, in order. -/
def onEntries (tr : List (ConnStep α)) : List (String × Nat) :=
  tr.filterMap (fun e => match e with
    | ConnStep.on meth tag => some (meth, tag)
    | _ => none)

end ConnectionModel

section AppModel

/-!
The Controller, translated from `src/src/App.tsx`.  The `App` component's
handlers and methods are embedded as pure functions from the reacted-to data
and the current component state to the new state and the list of commands
passed to `Connection.send`, in the order the source sends them.
-/

/-- Opaque protocol payload values threaded through by the App (the
screencast-frame data and metadata, the interaction params, the session id). -/
inductive JVal where
  | jnull
  | jbool (b : Bool)
  | jnum (q : ℚ)
  | jstr (s : String)
deriving DecidableEq

/-- The `viewportMetadata` slice of the App state (App.tsx lines 12-17). -/
structure ViewportMetadata where
  height : ℚ
  width : ℚ
  isLoading : Bool
  loadingPercent : ℚ
deriving DecidableEq

/-- The `history` slice of the App state (App.tsx lines 18-21). -/
structure HistoryFlags where
  canGoBack : Bool
  canGoForward : Bool
deriving DecidableEq

/-- The value stored in `state.frame` by the screencast-frame handler
(App.tsx lines 107-110). -/
structure CastFrame where
  base64Data : JVal
  metadata : JVal
deriving DecidableEq

/-- The App component state (App.tsx lines 8-22). -/
structure AppState where
  frame : Option CastFrame
  url : String
  verbose : Bool
  viewportMetadata : ViewportMetadata
  history : HistoryFlags
deriving DecidableEq

/-- `App.defaultSettings` (App.tsx lines 35-38). -/
def defaultSettingsUrl : String := "about:blank"

def defaultSettingsVerbose : Bool := false

/-- The state installed by the App constructor (App.tsx lines 42-56). -/
def appInitialState : AppState :=
  { frame := none,
    url := defaultSettingsUrl,
    verbose := defaultSettingsVerbose,
    history := { canGoBack := false, canGoForward := false },
    viewportMetadata :=
      { height := 0, isLoading := false, loadingPercent := 0, width := 0 } }

/-- The commands the App passes to `Connection.send`, with the parameter
objects it builds for them (spec section 6, observed command surface). -/
inductive Cmd where
  | pageEnable
  | pageNavigate (url : String)
  | pageReload
  | pageGoForward
  | pageGoBackward
  | pageGetNavigationHistory
  | pageSetDeviceMetricsOverride (deviceScaleFactor : ℚ) (height : ℤ) (mobile : Bool) (width : ℤ)
  | pageStartScreencast (format : String) (maxWidth : ℤ) (maxHeight : ℤ)
  | pageStopScreencast
  | pageScreencastFrameAck (sessionId : JVal)
  | extensionUpdateTitle (title : String)
  | extensionWindowOpenRequested (url : String)
  | viewportInteraction (method : String) (params : JVal)
deriving DecidableEq

/-- `App.stopCasting` (App.tsx lines 173-175). -/
def stopCasting (s : AppState) : AppState × List Cmd :=
  (s, [Cmd.pageStopScreencast])

/-- `App.startCasting` (App.tsx lines 177-187); `window.devicePixelRatio` is
passed in as `dpr`. -/
def startCasting (dpr : ℚ) (s : AppState) : AppState × List Cmd :=
  (s, [Cmd.pageStartScreencast "jpeg"
        ⌊s.viewportMetadata.width * dpr⌋
        ⌊s.viewportMetadata.height * dpr⌋])

/-- The fields of the untyped `data` argument of `App.onViewportChanged` that
the source reads (App.tsx lines 225-256). -/
structure ViewportEventData where
  action : String
  params : JVal
  width : ℚ
  height : ℚ

/-- The work the size branch of `App.onViewportChanged` schedules on the
`Page.setDeviceMetricsOverride` promise (App.tsx lines 241-252). -/
inductive SizeContinuation where
  | noCont
  | afterMetricsOverride (width height : ℚ)
deriving DecidableEq

/-- `App.onViewportChanged` (App.tsx lines 225-256), synchronous part: the
state after the handler returns, the commands sent, and the continuation the
size branch chains on the `Page.setDeviceMetricsOverride` promise. -/
def onViewportChanged (action : String) (data : ViewportEventData) (s : AppState) :
    AppState × List Cmd × SizeContinuation :=
  if action = "interaction" then
    (s, [Cmd.viewportInteraction data.action data.params], SizeContinuation.noCont)
  else if action = "size" then
    let sc := stopCasting s
    (sc.1,
     sc.2 ++ [Cmd.pageSetDeviceMetricsOverride 2 ⌊data.height⌋ false ⌊data.width⌋],
     SizeContinuation.afterMetricsOverride data.width data.height)
  else (s, [], SizeContinuation.noCont)

/-- The `.then` continuation of the size branch (App.tsx lines 241-252):
store the raw width and height into `viewportMetadata`, then `startCasting`.
`setState` is applied before `startCasting` reads the state, matching the
synchronous flush React performs for `setState` outside its event-handler
batching. -/
def runSizeContinuation (dpr : ℚ) (k : SizeContinuation) (s : AppState) :
    AppState × List Cmd :=
  match k with
  | SizeContinuation.noCont => (s, [])
  | SizeContinuation.afterMetricsOverride w h =>
    startCasting dpr
      { s with viewportMetadata := { s.viewportMetadata with height := h, width := w } }

/-- The field of the untyped `data` argument of `App.onToolbarActionInvoked`
that the source reads (App.tsx lines 269-276). -/
structure ToolbarEventData where
  url : String
deriving DecidableEq

/-- `App.onToolbarActionInvoked` (App.tsx lines 258-279). -/
def onToolbarActionInvoked (action : String) (data : ToolbarEventData) (s : AppState) :
    AppState × List Cmd :=
  if action = "forward" then (s, [Cmd.pageGoForward])
  else if action = "backward" then (s, [Cmd.pageGoBackward])
  else if action = "refresh" then (s, [Cmd.pageReload])
  else if action = "urlChange" then
    ({ s with url := data.url }, [Cmd.pageNavigate data.url])
  else (s, [])

/-- The destructured payload of a `Page.screencastFrame` event
(App.tsx line 103). -/
structure ScreencastFramePayload where
  sessionId : JVal
  data : JVal
  metadata : JVal

/-- The `Page.screencastFrame` handler registered in the App constructor
(App.tsx lines 102-112): acknowledge the frame with the same session id and
store the frame bitmap into the state. -/
def onScreencastFrame (p : ScreencastFramePayload) (s : AppState) : AppState × List Cmd :=
  ({ s with frame := some { base64Data := p.data, metadata := p.metadata } },
   [Cmd.pageScreencastFrameAck p.sessionId])

/-- One entry of the payload `Page.getNavigationHistory` resolves with
(App.tsx lines 198-201). -/
structure NavEntry where
  url : String
  title : String
deriving DecidableEq

/-- The payload `Page.getNavigationHistory` resolves with
(App.tsx lines 198-199). -/
structure NavHistoryPayload where
  currentIndex : Nat
  entries : List NavEntry
deriving DecidableEq

/-- JavaScript line terminators, which `.` in a regular expression does not
match. -/
def isLineTerminator (c : Char) : Bool :=
  c == '\n' || c == '\r' || c == Char.ofNat 0x2028 || c == Char.ofNat 0x2029

/-- Model of the url rewrite in `App.requestNavigationHistory`
(App.tsx lines 203-207): the regular expression anchored at the start matches
when the url starts with the seven characters `http://` and at least one
non-line-terminator character follows; its capture group is the maximal run of
non-line-terminator characters after that prefix, and the App keeps only the
capture.  When the match fails the url is left unchanged. -/
def stripHttpChars (l : List Char) : List Char :=
  if l.take 7 = "http://".data then
    let captured := (l.drop 7).takeWhile (fun c => !isLineTerminator c)
    if captured = [] then l else captured
  else l

def stripHttp (url : String) : String :=
  String.mk (stripHttpChars url.data)

/-- The url rewrite as the claim words it: remove a leading `http://` prefix
whenever it is present. -/
def claimedStripHttp (url : String) : String :=
  if url.data.take 7 = "http://".data then String.mk (url.data.drop 7) else url

/-- `App.requestNavigationHistory` after the `Page.getNavigationHistory`
promise resolves (App.tsx lines 189-223).  `none` models a falsy resolved
value (early return).  An out-of-range `currentIndex` makes the original
code throw on reading `currentEntry.url`, which rejects the async function's
promise before any state update or further send, so that case produces no
state change and no command. -/
def requestNavigationHistoryResolved (hist : Option NavHistoryPayload) (s : AppState) :
    AppState × List Cmd :=
  match hist with
  | none => (s, [])
  | some h =>
    match h.entries.get? h.currentIndex with
    | none => (s, [])
    | some currentEntry =>
      let url := stripHttp currentEntry.url
      let panelTitle := if currentEntry.title = "" then currentEntry.url else currentEntry.title
      ({ s with url := url,
                history := { canGoBack := h.currentIndex == 0,
                             canGoForward := h.currentIndex == h.entries.length - 1 } },
       [Cmd.extensionUpdateTitle ("Browser Preview (" ++ panelTitle ++ ")")])

/-- The `frame` field of a `Page.frameNavigated` payload; only `parentId` is
read by the App (App.tsx lines 65-66). -/
structure FrameInfo where
  parentId : Option String
deriving DecidableEq

/-- JavaScript truthiness test `!frame.parentId` (App.tsx line 66): an absent
`parentId` or the empty string marks the main frame. -/
def isMainFrame (f : FrameInfo) : Bool :=
  match f.parentId with
  | none => true
  | some pid => pid == ""

/-- The `Page.frameNavigated` handler registered in the App constructor
(App.tsx lines 64-79): on a main-frame navigation it invokes
`requestNavigationHistory` (whose synchronous effect is sending
`Page.getNavigationHistory`) and marks the viewport loading; otherwise it
does nothing. -/
def onFrameNavigated (f : FrameInfo) (s : AppState) : AppState × List Cmd :=
  if isMainFrame f then
    ({ s with viewportMetadata :=
        { s.viewportMetadata with isLoading := true, loadingPercent := 1/10 } },
     [Cmd.pageGetNavigationHistory])
  else (s, [])

end AppModel

section ConnLemmas

variable {α : Type}

theorem connStep_obs (s : ConnState α) (e : ConnStep α) :
    (connStep s e).toConnObs = pstep s.toConnObs e := rfl

theorem connRun_append (x y : List (ConnStep α)) :
    connRun (x ++ y) = y.foldl connStep (connRun x) := by
  simp [connRun, List.foldl_append]

theorem connRun_append_single (tr : List (ConnStep α)) (e : ConnStep α) :
    connRun (tr ++ [e]) = connStep (connRun tr) e := by
  simp [connRun_append]

@[simp] theorem settleOf_sent (c a b : Nat) (m : String) (p : Option α) :
    settleOf c (ObsEvent.sent a b m p) = false := rfl

@[simp] theorem settleOf_resolved (c a b : Nat) (r : Option α) :
    settleOf c (ObsEvent.resolved a b r) = (a == c) := rfl

@[simp] theorem settleOf_rejectedErr (c a b : Nat) (e : α) :
    settleOf c (ObsEvent.rejectedErr a b e) = (a == c) := rfl

@[simp] theorem settleOf_rejectedClosed (c a : Nat) (i : Option Nat) :
    settleOf c (ObsEvent.rejectedClosed a i : ObsEvent α) = (a == c) := rfl

@[simp] theorem settleOf_invoked (c t : Nat) (m : String) (p : Option α) :
    settleOf c (ObsEvent.invoked t m p) = false := rfl

@[simp] theorem settleCount_nil (c : Nat) : settleCount ([] : List (ObsEvent α)) c = 0 := rfl

theorem settleCount_append (l₁ l₂ : List (ObsEvent α)) (c : Nat) :
    settleCount (l₁ ++ l₂) c = settleCount l₁ c + settleCount l₂ c := by
  simp [settleCount, List.filter_append]

theorem settleCount_cons (e : ObsEvent α) (l : List (ObsEvent α)) (c : Nat) :
    settleCount (e :: l) c = (if settleOf c e then 1 else 0) + settleCount l c := by
  simp only [settleCount, List.filter_cons]
  by_cases h : settleOf c e <;> simp [h, Nat.add_comm]

@[simp] theorem pendCount_nil (c : Nat) : pendCount [] c = 0 := rfl

theorem pendCount_cons (pc : PendingCall) (l : List PendingCall) (c : Nat) :
    pendCount (pc :: l) c = (if pc.callIdx = c then 1 else 0) + pendCount l c := by
  simp only [pendCount, List.filter_cons]
  by_cases h : pc.callIdx = c <;> simp [h, Nat.add_comm]

theorem pendCount_append (l₁ l₂ : List PendingCall) (c : Nat) :
    pendCount (l₁ ++ l₂) c = pendCount l₁ c + pendCount l₂ c := by
  simp [pendCount, List.filter_append]

theorem settleCount_dispatch (hs : List (String × Nat)) (meth : String) (p : Option α)
    (c : Nat) : settleCount (dispatchEvents hs meth p) c = 0 := by
  induction hs with
  | nil => rfl
  | cons a t ih =>
    simp only [dispatchEvents, List.filter_cons] at ih ⊢
    by_cases h : a.1 == meth <;> simp [h, settleCount_cons, ih]

theorem settleCount_map_rejected (p : List PendingCall) (c : Nat) :
    settleCount (p.map (fun pc => (ObsEvent.rejectedClosed pc.callIdx (some pc.id) : ObsEvent α))) c
      = pendCount p c := by
  induction p with
  | nil => rfl
  | cons pc t ih =>
    simp [settleCount_cons, pendCount_cons, ih]

theorem removeById_some {p : List PendingCall} {i : Nat} {q : PendingCall}
    {rest : List PendingCall} (h : removeById p i = some (q, rest)) :
    q.id = i ∧ q ∈ p ∧ (∀ x ∈ rest, x ∈ p)
      ∧ ∀ c, pendCount p c = pendCount rest c + (if q.callIdx = c then 1 else 0) := by
  induction p generalizing rest with
  | nil => simp [removeById] at h
  | cons pc t ih =>
    by_cases hid : pc.id = i
    · simp only [removeById, if_pos hid, Option.some.injEq, Prod.mk.injEq] at h
      obtain ⟨hq, hrest⟩ := h
      subst hq; subst hrest
      refine ⟨hid, List.mem_cons_self _ _, fun x hx => List.mem_cons_of_mem _ hx, ?_⟩
      intro c
      rw [pendCount_cons, Nat.add_comm]
    · rw [removeById, if_neg hid] at h
      cases hrec : removeById t i with
      | none => rw [hrec] at h; exact absurd h (by simp)
      | some pr =>
        obtain ⟨q', rest'⟩ := pr
        rw [hrec] at h
        simp only [Option.some.injEq, Prod.mk.injEq] at h
        obtain ⟨hq, hrest⟩ := h
        subst hq; subst hrest
        obtain ⟨h1, h2, h3, h4⟩ := ih hrec
        refine ⟨h1, List.mem_cons_of_mem _ h2, ?_, ?_⟩
        · intro x hx
          rcases List.mem_cons.mp hx with hx | hx
          · exact hx ▸ List.mem_cons_self _ _
          · exact List.mem_cons_of_mem _ (h3 x hx)
        · intro c
          rw [pendCount_cons, pendCount_cons, h4 c]
          omega

theorem lookupAssigned_unchanged {s s' : ConnObs α} (h : s'.assigned = s.assigned) (c : Nat) :
    lookupAssigned s' c = lookupAssigned s c := by
  simp [lookupAssigned, h]

theorem lookupAssigned_mem {s : ConnObs α} {c v : Nat} (h : lookupAssigned s c = some v) :
    ∃ a ∈ s.assigned, a.1 = c ∧ a.2 = v := by
  simp only [lookupAssigned, Option.map_eq_some'] at h
  obtain ⟨a, ha, hv⟩ := h
  exact ⟨a, List.mem_of_find?_eq_some ha, by simpa using List.find?_some ha, hv⟩

end ConnLemmas

section ConnInvariant

variable {α : Type}

/-- The inductive invariant of the Connection state machine: every issued call
has in total exactly one settlement or pending entry; pending calls carry ids
below `nextId`, consistent with the assignment history; assignments are fresh
and strictly decreasing (most recent first); a closed connection has no
pending calls. -/
structure ConnInv (s : ConnObs α) : Prop where
  count : ∀ c, settleCount s.obsLog c + pendCount s.pending c
    = if c < s.nCalls then 1 else 0
  pendingIdx : ∀ pc ∈ s.pending, pc.callIdx < s.nCalls
  pendingId : ∀ pc ∈ s.pending, pc.id < s.nextId
  pendingAssigned : ∀ pc ∈ s.pending, lookupAssigned s pc.callIdx = some pc.id
  assignedIdx : ∀ a ∈ s.assigned, a.1 < s.nCalls
  assignedId : ∀ a ∈ s.assigned, a.2 < s.nextId
  assignedSorted : s.assigned.Pairwise (fun a b => b.2 < a.2)
  closedPending : s.closed = true → s.pending = []

theorem connInv_init : ConnInv ((connInit α).toConnObs) := by
  refine ⟨?_, ?_, ?_, ?_, ?_, ?_, ?_, ?_⟩ <;> simp [connInit]

theorem pstep_inv (s : ConnObs α) (e : ConnStep α) (inv : ConnInv s) :
    ConnInv (pstep s e) := by
  cases e with
  | send meth p =>
    by_cases hcl : s.closed = true
    · simp only [pstep, if_pos hcl]
      refine ⟨?_, ?_, inv.pendingId, inv.pendingAssigned, ?_, inv.assignedId,
        inv.assignedSorted, ?_⟩
      · intro c
        have hc := inv.count c
        simp only [settleCount_append, settleCount_cons, settleCount_nil,
          settleOf_rejectedClosed, beq_iff_eq]
        split_ifs at hc ⊢ <;> omega
      · intro pc hpc
        have := inv.pendingIdx pc hpc
        dsimp only
        omega
      · intro a ha
        have := inv.assignedIdx a ha
        dsimp only
        omega
      · intro h
        exact inv.closedPending h
    · simp only [pstep, if_neg hcl]
      refine ⟨?_, ?_, ?_, ?_, ?_, ?_, ?_, ?_⟩
      · intro c
        have hc := inv.count c
        simp only [settleCount_append, settleCount_cons, settleCount_nil, settleOf_sent,
          pendCount_append, pendCount_cons, pendCount_nil, Bool.false_eq_true, if_false]
        split_ifs at hc ⊢ <;> omega
      · intro pc hpc
        rcases List.mem_append.mp hpc with h | h
        · have := inv.pendingIdx pc h
          dsimp only
          omega
        · simp only [List.mem_singleton] at h
          subst h
          exact Nat.lt_succ_self _
      · intro pc hpc
        rcases List.mem_append.mp hpc with h | h
        · have := inv.pendingId pc h
          dsimp only
          omega
        · simp only [List.mem_singleton] at h
          subst h
          exact Nat.lt_succ_self _
      · intro pc hpc
        rcases List.mem_append.mp hpc with h | h
        · have hl := inv.pendingAssigned pc h
          have hlt := inv.pendingIdx pc h
          simp only [lookupAssigned] at hl ⊢
          rw [List.find?_cons_of_neg]
          · exact hl
          · simp only [beq_iff_eq]
            omega
        · simp only [List.mem_singleton] at h
          subst h
          simp only [lookupAssigned]
          rw [List.find?_cons_of_pos]
          · rfl
          · simp
      · intro a ha
        rcases List.mem_cons.mp ha with h | h
        · subst h
          exact Nat.lt_succ_self _
        · have := inv.assignedIdx a h
          dsimp only
          omega
      · intro a ha
        rcases List.mem_cons.mp ha with h | h
        · subst h
          exact Nat.lt_succ_self _
        · have := inv.assignedId a h
          dsimp only
          omega
      · exact List.Pairwise.cons (fun b hb => inv.assignedId b hb) inv.assignedSorted
      · intro h
        exact absurd h hcl
  | «on» meth tag =>
    exact ⟨inv.count, inv.pendingIdx, inv.pendingId, inv.pendingAssigned,
      inv.assignedIdx, inv.assignedId, inv.assignedSorted, inv.closedPending⟩
  | setLoggingMode b => exact inv
  | inbound m =>
    by_cases hcl : s.closed = true
    · simp only [pstep, if_pos hcl]
      exact inv
    · simp only [pstep, if_neg hcl]
      cases hid : m.id with
      | none =>
        dsimp only
        cases hmeth : m.method with
        | none => exact inv
        | some meth =>
          refine ⟨?_, inv.pendingIdx, inv.pendingId, inv.pendingAssigned,
            inv.assignedIdx, inv.assignedId, inv.assignedSorted, ?_⟩
          · intro c
            have hc := inv.count c
            simp only [settleCount_append, settleCount_dispatch]
            omega
          · intro h
            exact absurd h hcl
      | some i =>
        dsimp only
        cases hrem : removeById s.pending i with
        | none => exact inv
        | some pr =>
          obtain ⟨pc, rest⟩ := pr
          obtain ⟨hqid, hqmem, hsub, hcount⟩ := removeById_some hrem
          dsimp only
          cases herr : m.error with
          | none =>
            refine ⟨?_, ?_, ?_, ?_, inv.assignedIdx, inv.assignedId,
              inv.assignedSorted, ?_⟩
            · intro c
              have hc := inv.count c
              rw [hcount c] at hc
              simp only [settleCount_append, settleCount_cons, settleCount_nil,
                settleOf_resolved, beq_iff_eq]
              split_ifs at hc ⊢ <;> omega
            · intro x hx
              exact inv.pendingIdx x (hsub x hx)
            · intro x hx
              exact inv.pendingId x (hsub x hx)
            · intro x hx
              exact inv.pendingAssigned x (hsub x hx)
            · intro h
              exact absurd h hcl
          | some er =>
            refine ⟨?_, ?_, ?_, ?_, inv.assignedIdx, inv.assignedId,
              inv.assignedSorted, ?_⟩
            · intro c
              have hc := inv.count c
              rw [hcount c] at hc
              simp only [settleCount_append, settleCount_cons, settleCount_nil,
                settleOf_rejectedErr, beq_iff_eq]
              split_ifs at hc ⊢ <;> omega
            · intro x hx
              exact inv.pendingIdx x (hsub x hx)
            · intro x hx
              exact inv.pendingId x (hsub x hx)
            · intro x hx
              exact inv.pendingAssigned x (hsub x hx)
            · intro h
              exact absurd h hcl
  | close =>
    by_cases hcl : s.closed = true
    · simp only [pstep, if_pos hcl]
      exact inv
    · simp only [pstep, if_neg hcl]
      refine ⟨?_, ?_, ?_, ?_, inv.assignedIdx, inv.assignedId, inv.assignedSorted, ?_⟩
      · intro c
        have hc := inv.count c
        simp only [settleCount_append, settleCount_map_rejected, pendCount_nil]
        split_ifs at hc ⊢ <;> omega
      · intro pc hpc
        exact absurd hpc (List.not_mem_nil _)
      · intro pc hpc
        exact absurd hpc (List.not_mem_nil _)
      · intro pc hpc
        exact absurd hpc (List.not_mem_nil _)
      · intro _
        rfl

theorem connInv_foldl (tr : List (ConnStep α)) (s : ConnState α)
    (h : ConnInv s.toConnObs) : ConnInv ((tr.foldl connStep s).toConnObs) := by
  induction tr generalizing s with
  | nil => exact h
  | cons e t ih =>
    refine ih (connStep s e) ?_
    rw [connStep_obs]
    exact pstep_inv _ _ h

theorem connInv_run (tr : List (ConnStep α)) : ConnInv ((connRun tr).toConnObs) :=
  connInv_foldl tr (connInit α) connInv_init

end ConnInvariant

section ConnRunLemmas

variable {α : Type}

theorem pstep_setLogging (s : ConnObs α) (b : Bool) :
    pstep s (ConnStep.setLoggingMode b) = s := rfl

theorem pstep_handlers (s : ConnObs α) (e : ConnStep α) :
    (pstep s e).handlers = match e with
      | ConnStep.on meth tag => s.handlers ++ [(meth, tag)]
      | _ => s.handlers := by
  cases e with
  | send meth p => by_cases hcl : s.closed = true <;> simp [pstep, hcl]
  | «on» meth tag => rfl
  | setLoggingMode b => rfl
  | inbound m =>
    by_cases hcl : s.closed = true
    · simp [pstep, hcl]
    · simp only [pstep, if_neg hcl]
      cases hid : m.id with
      | some i =>
        dsimp only
        cases hrem : removeById s.pending i with
        | none => rfl
        | some pr =>
          obtain ⟨pc, rest⟩ := pr
          dsimp only
          cases herr : m.error with
          | none => rfl
          | some er => rfl
      | none =>
        dsimp only
        cases hmeth : m.method with
        | none => rfl
        | some meth => rfl
  | close =>
    by_cases hcl : s.closed = true <;> simp [pstep, hcl]

theorem pstep_obsLog (s : ConnObs α) (e : ConnStep α) :
    ∃ t, (pstep s e).obsLog = s.obsLog ++ t := by
  cases e with
  | send meth p =>
    by_cases hcl : s.closed = true
    · exact ⟨[ObsEvent.rejectedClosed s.nCalls none], by simp [pstep, hcl]⟩
    · exact ⟨[ObsEvent.sent s.nCalls s.nextId meth p], by simp [pstep, hcl]⟩
  | «on» meth tag => exact ⟨[], by simp [pstep]⟩
  | setLoggingMode b => exact ⟨[], by simp [pstep]⟩
  | inbound m =>
    by_cases hcl : s.closed = true
    · exact ⟨[], by simp [pstep, hcl]⟩
    · simp only [pstep, if_neg hcl]
      cases hid : m.id with
      | some i =>
        dsimp only
        cases hrem : removeById s.pending i with
        | none => exact ⟨[], by simp⟩
        | some pr =>
          obtain ⟨pc, rest⟩ := pr
          dsimp only
          cases herr : m.error with
          | none => exact ⟨_, rfl⟩
          | some er => exact ⟨_, rfl⟩
      | none =>
        dsimp only
        cases hmeth : m.method with
        | none => exact ⟨[], by simp⟩
        | some meth => exact ⟨_, rfl⟩
  | close =>
    by_cases hcl : s.closed = true
    · exact ⟨[], by simp [pstep, hcl]⟩
    · exact ⟨s.pending.map (fun pc => ObsEvent.rejectedClosed pc.callIdx (some pc.id)),
        by simp [pstep, hcl]⟩

theorem pstep_closed (s : ConnObs α) (e : ConnStep α) (h : s.closed = true) :
    (pstep s e).closed = true := by
  cases e with
  | send meth p => simp [pstep, h]
  | «on» meth tag => simpa [pstep] using h
  | setLoggingMode b => simpa [pstep] using h
  | inbound m => simp [pstep, h]
  | close => simp [pstep, h]

theorem pstep_nCalls (s : ConnObs α) (e : ConnStep α) :
    s.nCalls ≤ (pstep s e).nCalls := by
  cases e with
  | send meth p =>
    by_cases hcl : s.closed = true <;> simp [pstep, hcl]
  | «on» meth tag => exact Nat.le_refl _
  | setLoggingMode b => exact Nat.le_refl _
  | inbound m =>
    by_cases hcl : s.closed = true
    · simp [pstep, hcl]
    · simp only [pstep, if_neg hcl]
      cases hid : m.id with
      | some i =>
        dsimp only
        cases hrem : removeById s.pending i with
        | none => exact Nat.le_refl _
        | some pr =>
          obtain ⟨pc, rest⟩ := pr
          dsimp only
          cases herr : m.error with
          | none => exact Nat.le_refl _
          | some er => exact Nat.le_refl _
      | none =>
        dsimp only
        cases hmeth : m.method with
        | none => exact Nat.le_refl _
        | some meth => exact Nat.le_refl _
  | close =>
    by_cases hcl : s.closed = true <;> simp [pstep, hcl]

theorem lookupAssigned_pstep {s : ConnObs α} (inv : ConnInv s) {c v : Nat}
    (h : lookupAssigned s c = some v) (e : ConnStep α) :
    lookupAssigned (pstep s e) c = some v := by
  obtain ⟨a, ha, hac, hav⟩ := lookupAssigned_mem h
  have hlt : c < s.nCalls := by
    rw [← hac]
    exact inv.assignedIdx a ha
  cases e with
  | send meth p =>
    by_cases hcl : s.closed = true
    · simp only [pstep, if_pos hcl]
      exact h
    · simp only [pstep, if_neg hcl]
      simp only [lookupAssigned] at h ⊢
      rw [List.find?_cons_of_neg]
      · exact h
      · simp only [beq_iff_eq]
        omega
  | «on» meth tag => exact h
  | setLoggingMode b => exact h
  | inbound m =>
    by_cases hcl : s.closed = true
    · simp only [pstep, if_pos hcl]
      exact h
    · simp only [pstep, if_neg hcl]
      cases hid : m.id with
      | some i =>
        dsimp only
        cases hrem : removeById s.pending i with
        | none => exact h
        | some pr =>
          obtain ⟨pc, rest⟩ := pr
          dsimp only
          cases herr : m.error with
          | none => exact h
          | some er => exact h
      | none =>
        dsimp only
        cases hmeth : m.method with
        | none => exact h
        | some meth => exact h
  | close =>
    by_cases hcl : s.closed = true
    · simp only [pstep, if_pos hcl]
      exact h
    · simp only [pstep, if_neg hcl]
      exact h

theorem foldl_handlers (tr : List (ConnStep α)) (s : ConnState α) :
    (tr.foldl connStep s).handlers = s.handlers ++ onEntries tr := by
  induction tr generalizing s with
  | nil => simp [onEntries]
  | cons e t ih =>
    rw [List.foldl_cons, ih]
    have hh : (connStep s e).handlers = (pstep s.toConnObs e).handlers := rfl
    rw [hh, pstep_handlers]
    cases e <;> simp [onEntries, List.filterMap_cons]

theorem connRun_handlers (tr : List (ConnStep α)) :
    (connRun tr).handlers = onEntries tr := by
  have := foldl_handlers tr (connInit α)
  simpa [connRun, connInit] using this

theorem foldl_obsLog (tr : List (ConnStep α)) (s : ConnState α) :
    ∃ t, (tr.foldl connStep s).obsLog = s.obsLog ++ t := by
  induction tr generalizing s with
  | nil => exact ⟨[], by simp⟩
  | cons e t ih =>
    obtain ⟨t₁, h₁⟩ := pstep_obsLog s.toConnObs e
    obtain ⟨t₂, h₂⟩ := ih (connStep s e)
    refine ⟨t₁ ++ t₂, ?_⟩
    rw [List.foldl_cons, h₂]
    have hh : (connStep s e).obsLog = (pstep s.toConnObs e).obsLog := rfl
    rw [hh, h₁, List.append_assoc]

theorem foldl_closed (tr : List (ConnStep α)) (s : ConnState α) (h : s.closed = true) :
    (tr.foldl connStep s).closed = true := by
  induction tr generalizing s with
  | nil => exact h
  | cons e t ih =>
    rw [List.foldl_cons]
    exact ih (connStep s e) (pstep_closed s.toConnObs e h)

theorem foldl_nCalls (tr : List (ConnStep α)) (s : ConnState α) :
    s.nCalls ≤ (tr.foldl connStep s).nCalls := by
  induction tr generalizing s with
  | nil => exact Nat.le_refl _
  | cons e t ih =>
    rw [List.foldl_cons]
    exact Nat.le_trans (pstep_nCalls s.toConnObs e) (ih (connStep s e))

theorem foldl_connStep_obs (tr : List (ConnStep α)) (s : ConnState α) :
    (tr.foldl connStep s).toConnObs = (eraseLogging tr).foldl pstep s.toConnObs := by
  induction tr generalizing s with
  | nil => rfl
  | cons e t ih =>
    rw [List.foldl_cons, ih]
    cases e <;> simp [eraseLogging, List.filter_cons, connStep_obs, pstep_setLogging]

theorem connRun_obsErase (tr : List (ConnStep α)) :
    (connRun tr).toConnObs = (eraseLogging tr).foldl pstep (connInit α).toConnObs :=
  foldl_connStep_obs tr (connInit α)

end ConnRunLemmas

section ConnJustified

variable {α : Type}

/-- Every resolve recorded in the log carries the id assigned to its call and
a payload taken from an inbound message bearing exactly that id. -/
def ResJust (tr : List (ConnStep α)) (s : ConnObs α) : Prop :=
  ∀ c i r, ObsEvent.resolved c i r ∈ s.obsLog →
    lookupAssigned s c = some i
    ∧ ∃ m : InMsg α, ConnStep.inbound m ∈ tr ∧ m.id = some i
        ∧ m.error = none ∧ m.result = r

/-- Every error-reject recorded in the log carries the id assigned to its
call and an error payload taken from an inbound message bearing that id. -/
def ErrJust (tr : List (ConnStep α)) (s : ConnObs α) : Prop :=
  ∀ c i er, ObsEvent.rejectedErr c i er ∈ s.obsLog →
    lookupAssigned s c = some i
    ∧ ∃ m : InMsg α, ConnStep.inbound m ∈ tr ∧ m.id = some i ∧ m.error = some er

theorem justified_pstep {s : ConnObs α} (inv : ConnInv s) {l : List (ConnStep α)}
    (hres : ResJust l s) (herrj : ErrJust l s) (e : ConnStep α) :
    ResJust (l ++ [e]) (pstep s e) ∧ ErrJust (l ++ [e]) (pstep s e) := by
  have stepRes : ∀ c i r, ObsEvent.resolved c i r ∈ s.obsLog →
      lookupAssigned (pstep s e) c = some i
      ∧ ∃ m : InMsg α, ConnStep.inbound m ∈ l ++ [e] ∧ m.id = some i
          ∧ m.error = none ∧ m.result = r := by
    intro c i r h
    obtain ⟨hl, m, hm, h1, h2, h3⟩ := hres c i r h
    exact ⟨lookupAssigned_pstep inv hl e, m, List.mem_append_left _ hm, h1, h2, h3⟩
  have stepErr : ∀ c i er, ObsEvent.rejectedErr c i er ∈ s.obsLog →
      lookupAssigned (pstep s e) c = some i
      ∧ ∃ m : InMsg α, ConnStep.inbound m ∈ l ++ [e] ∧ m.id = some i
          ∧ m.error = some er := by
    intro c i er h
    obtain ⟨hl, m, hm, h1, h2⟩ := herrj c i er h
    exact ⟨lookupAssigned_pstep inv hl e, m, List.mem_append_left _ hm, h1, h2⟩
  cases e with
  | send meth p =>
    by_cases hcl : s.closed = true
    · constructor
      · intro c i r h
        simp only [pstep, if_pos hcl] at h
        rcases List.mem_append.mp h with h | h
        · exact stepRes c i r h
        · simp at h
      · intro c i er h
        simp only [pstep, if_pos hcl] at h
        rcases List.mem_append.mp h with h | h
        · exact stepErr c i er h
        · simp at h
    · constructor
      · intro c i r h
        simp only [pstep, if_neg hcl] at h
        rcases List.mem_append.mp h with h | h
        · exact stepRes c i r h
        · simp at h
      · intro c i er h
        simp only [pstep, if_neg hcl] at h
        rcases List.mem_append.mp h with h | h
        · exact stepErr c i er h
        · simp at h
  | «on» meth tag =>
    exact ⟨fun c i r h => stepRes c i r h, fun c i er h => stepErr c i er h⟩
  | setLoggingMode b =>
    exact ⟨fun c i r h => stepRes c i r h, fun c i er h => stepErr c i er h⟩
  | inbound m =>
    by_cases hcl : s.closed = true
    · constructor
      · intro c i r h
        simp only [pstep, if_pos hcl] at h
        exact stepRes c i r h
      · intro c i er h
        simp only [pstep, if_pos hcl] at h
        exact stepErr c i er h
    · cases hid : m.id with
      | some i₀ =>
        cases hrem : removeById s.pending i₀ with
        | none =>
          constructor
          · intro c i r h
            simp only [pstep, if_neg hcl, hid, hrem] at h
            exact stepRes c i r h
          · intro c i er h
            simp only [pstep, if_neg hcl, hid, hrem] at h
            exact stepErr c i er h
        | some pr =>
          obtain ⟨pc, rest⟩ := pr
          obtain ⟨hqid, hqmem, hsub, hcount⟩ := removeById_some hrem
          cases herr : m.error with
          | none =>
            constructor
            · intro c i r h
              simp only [pstep, if_neg hcl, hid, hrem, herr] at h
              rcases List.mem_append.mp h with h | h
              · exact stepRes c i r h
              · simp only [List.mem_singleton, ObsEvent.resolved.injEq] at h
                obtain ⟨h1, h2, h3⟩ := h
                subst h1; subst h2; subst h3
                constructor
                · have hla := inv.pendingAssigned pc hqmem
                  rw [hqid] at hla
                  simp only [pstep, if_neg hcl, hid, hrem, herr]
                  exact hla
                · exact ⟨m, by simp, hid, herr, rfl⟩
            · intro c i er h
              simp only [pstep, if_neg hcl, hid, hrem, herr] at h
              rcases List.mem_append.mp h with h | h
              · exact stepErr c i er h
              · simp at h
          | some er₀ =>
            constructor
            · intro c i r h
              simp only [pstep, if_neg hcl, hid, hrem, herr] at h
              rcases List.mem_append.mp h with h | h
              · exact stepRes c i r h
              · simp at h
            · intro c i er h
              simp only [pstep, if_neg hcl, hid, hrem, herr] at h
              rcases List.mem_append.mp h with h | h
              · exact stepErr c i er h
              · simp only [List.mem_singleton, ObsEvent.rejectedErr.injEq] at h
                obtain ⟨h1, h2, h3⟩ := h
                subst h1; subst h2; subst h3
                constructor
                · have hla := inv.pendingAssigned pc hqmem
                  rw [hqid] at hla
                  simp only [pstep, if_neg hcl, hid, hrem, herr]
                  exact hla
                · exact ⟨m, by simp, hid, herr⟩
      | none =>
        cases hmeth : m.method with
        | none =>
          constructor
          · intro c i r h
            simp only [pstep, if_neg hcl, hid, hmeth] at h
            exact stepRes c i r h
          · intro c i er h
            simp only [pstep, if_neg hcl, hid, hmeth] at h
            exact stepErr c i er h
        | some meth =>
          constructor
          · intro c i r h
            simp only [pstep, if_neg hcl, hid, hmeth] at h
            rcases List.mem_append.mp h with h | h
            · exact stepRes c i r h
            · simp [dispatchEvents] at h
          · intro c i er h
            simp only [pstep, if_neg hcl, hid, hmeth] at h
            rcases List.mem_append.mp h with h | h
            · exact stepErr c i er h
            · simp [dispatchEvents] at h
  | close =>
    by_cases hcl : s.closed = true
    · constructor
      · intro c i r h
        simp only [pstep, if_pos hcl] at h
        exact stepRes c i r h
      · intro c i er h
        simp only [pstep, if_pos hcl] at h
        exact stepErr c i er h
    · constructor
      · intro c i r h
        simp only [pstep, if_neg hcl] at h
        rcases List.mem_append.mp h with h | h
        · exact stepRes c i r h
        · simp at h
      · intro c i er h
        simp only [pstep, if_neg hcl] at h
        rcases List.mem_append.mp h with h | h
        · exact stepErr c i er h
        · simp at h

theorem connRun_justified (tr : List (ConnStep α)) :
    ResJust tr ((connRun tr).toConnObs) ∧ ErrJust tr ((connRun tr).toConnObs) := by
  induction tr using List.reverseRecOn with
  | nil =>
    constructor
    · intro c i r h
      simp [connRun, connInit] at h
    · intro c i er h
      simp [connRun, connInit] at h
  | append_singleton l e ih =>
    obtain ⟨ihRes, ihErr⟩ := ih
    have inv := connInv_run l
    rw [connRun_append_single, connStep_obs]
    exact justified_pstep inv ihRes ihErr e

end ConnJustified

theorem settleCount_pos_of_mem {α : Type} {log : List (ObsEvent α)} {e : ObsEvent α}
    {c : Nat} (hm : e ∈ log) (hp : settleOf c e = true) : 0 < settleCount log c :=
  List.length_pos_of_mem (List.mem_filter.mpr ⟨hm, hp⟩)

/-- C1: for every stimulus trace — hence for every sequence of `send` calls
and every response arrival order — each issued call is either still pending
or settled exactly once (the count equation), and every settlement by a
response carries exactly the correlation id assigned to that call together
with the payload of an inbound message bearing that id: no cross-wiring
between pending calls. -/
theorem connection_send_no_cross_wiring (α : Type) (tr : List (ConnStep α)) :
    (∀ c, settleCount (connRun tr).obsLog c + pendCount (connRun tr).pending c
        = if c < (connRun tr).nCalls then 1 else 0)
    ∧ ResJust tr ((connRun tr).toConnObs)
    ∧ ErrJust tr ((connRun tr).toConnObs) :=
  ⟨(connInv_run tr).count, (connRun_justified tr).1, (connRun_justified tr).2⟩

def c1Trace : List (ConnStep Nat) :=
  [ConnStep.send "Page.navigate" (some 1),
   ConnStep.inbound ⟨some 0, none, some 7, none, none⟩]

theorem connection_send_no_cross_wiring_witness :
    lookupAssigned ((connRun c1Trace).toConnObs) 0 = some 0
    ∧ ∃ m : InMsg Nat, ConnStep.inbound m ∈ c1Trace ∧ m.id = some 0
        ∧ m.error = none ∧ m.result = some 7 :=
  (connection_send_no_cross_wiring Nat c1Trace).2.1 0 0 (some 7) (by decide)

/-- C2: the correlation ids assigned over the Connection's lifetime are
strictly increasing in chronological order, every pending id sits below the
next id to be assigned, and the id an open Connection gives to the next
`send` differs from every currently pending id — an id is never reassigned
while a call with it is pending. -/
theorem connection_ids_strictly_increasing (α : Type) (tr : List (ConnStep α))
    (meth : String) (p : Option α) (hopen : (connRun tr).closed = false) :
    List.Pairwise (fun x y => x < y)
        (((connRun tr).assigned.map (fun a => a.2)).reverse)
    ∧ (∀ pc ∈ (connRun tr).pending, pc.id < (connRun tr).nextId)
    ∧ (connRun (tr ++ [ConnStep.send meth p])).assigned
        = ((connRun tr).nCalls, (connRun tr).nextId) :: (connRun tr).assigned
    ∧ ∀ pc ∈ (connRun tr).pending, (connRun tr).nextId ≠ pc.id := by
  have inv := connInv_run tr
  refine ⟨?_, inv.pendingId, ?_, ?_⟩
  · rw [List.pairwise_reverse, List.pairwise_map]
    exact inv.assignedSorted
  · rw [connRun_append_single, connStep_obs]
    simp [pstep, hopen]
  · intro pc hpc
    have := inv.pendingId pc hpc
    omega

def c2Trace : List (ConnStep Nat) :=
  [ConnStep.send "Page.enable" none, ConnStep.send "Page.getNavigationHistory" none]

theorem connection_ids_strictly_increasing_witness :
    List.Pairwise (fun x y => x < y)
        (((connRun c2Trace).assigned.map (fun a => a.2)).reverse)
    ∧ (∀ pc ∈ (connRun c2Trace).pending, pc.id < (connRun c2Trace).nextId)
    ∧ (connRun (c2Trace ++ [ConnStep.send "Page.reload" none])).assigned
        = ((connRun c2Trace).nCalls, (connRun c2Trace).nextId) :: (connRun c2Trace).assigned
    ∧ ∀ pc ∈ (connRun c2Trace).pending, (connRun c2Trace).nextId ≠ pc.id :=
  connection_ids_strictly_increasing Nat c2Trace "Page.reload" none (by decide)

/-- C3: delivering one event notification for a method name on an open
Connection appends to the observable log exactly one invocation per handler
registered for that name in the preceding trace, in registration order —
two handlers both fire in order, and a handler registered twice fires
twice. -/
theorem connection_event_fanout (α : Type) (tr : List (ConnStep α)) (meth : String)
    (p : Option α) (hopen : (connRun tr).closed = false) :
    (connRun (tr ++ [ConnStep.inbound ⟨none, some meth, none, none, p⟩])).obsLog
      = (connRun tr).obsLog
        ++ ((onEntries tr).filter (fun a => a.1 == meth)).map
            (fun a => ObsEvent.invoked a.2 meth p) := by
  rw [connRun_append_single]
  have hh : (connStep (connRun tr) (ConnStep.inbound ⟨none, some meth, none, none, p⟩)).obsLog
      = (pstep (connRun tr).toConnObs
          (ConnStep.inbound ⟨none, some meth, none, none, p⟩)).obsLog := rfl
  rw [hh]
  simp [pstep, hopen, dispatchEvents, connRun_handlers]

def c3Trace : List (ConnStep Nat) :=
  [ConnStep.on "Page.loadEventFired" 1, ConnStep.on "Page.loadEventFired" 2,
   ConnStep.on "Page.frameNavigated" 3, ConnStep.on "Page.loadEventFired" 1]

theorem connection_event_fanout_witness :
    (connRun (c3Trace
        ++ [ConnStep.inbound ⟨none, some "Page.loadEventFired", none, none, some 4⟩])).obsLog
      = (connRun c3Trace).obsLog
        ++ ((onEntries c3Trace).filter (fun a => a.1 == "Page.loadEventFired")).map
            (fun a => ObsEvent.invoked a.2 "Page.loadEventFired" (some 4)) :=
  connection_event_fanout Nat c3Trace "Page.loadEventFired" (some 4) (by decide)

/-- C4: closing an open Connection force-rejects every pending call with the
connection-closed error, one rejection per pending call in table order, and
empties the pending table; and every `send` issued at any later point fails
immediately with a connection-closed rejection, and that call is never
resolved afterwards. -/
theorem connection_close_rejects_and_fails_sends (α : Type)
    (tr mid ext : List (ConnStep α)) (meth : String) (p : Option α)
    (hopen : (connRun tr).closed = false) :
    ((connRun (tr ++ [ConnStep.close])).obsLog
        = (connRun tr).obsLog
          ++ (connRun tr).pending.map
              (fun pc => ObsEvent.rejectedClosed pc.callIdx (some pc.id))
      ∧ (connRun (tr ++ [ConnStep.close])).pending = []
      ∧ (connRun (tr ++ [ConnStep.close])).closed = true)
    ∧ ((connRun (tr ++ [ConnStep.close] ++ mid ++ [ConnStep.send meth p])).obsLog
        = (connRun (tr ++ [ConnStep.close] ++ mid)).obsLog
          ++ [ObsEvent.rejectedClosed (connRun (tr ++ [ConnStep.close] ++ mid)).nCalls none]
      ∧ ∀ i r, ObsEvent.resolved (connRun (tr ++ [ConnStep.close] ++ mid)).nCalls i r
          ∉ (connRun (tr ++ [ConnStep.close] ++ mid
              ++ [ConnStep.send meth p] ++ ext)).obsLog) := by
  have hstate : (connRun (tr ++ [ConnStep.close])).toConnObs
      = pstep (connRun tr).toConnObs ConnStep.close := by
    rw [connRun_append_single, connStep_obs]
  have hclose : (connRun (tr ++ [ConnStep.close])).obsLog
        = (connRun tr).obsLog
          ++ (connRun tr).pending.map
              (fun pc => ObsEvent.rejectedClosed pc.callIdx (some pc.id))
      ∧ (connRun (tr ++ [ConnStep.close])).pending = []
      ∧ (connRun (tr ++ [ConnStep.close])).closed = true := by
    refine ⟨?_, ?_, ?_⟩ <;> rw [hstate] <;> simp [pstep, hopen]
  refine ⟨hclose, ?_⟩
  set t := tr ++ [ConnStep.close] ++ mid with ht
  have hmidclosed : (connRun t).closed = true := by
    rw [ht, connRun_append]
    exact foldl_closed mid _ hclose.2.2
  have hstate2 : (connRun (t ++ [ConnStep.send meth p])).toConnObs
      = pstep (connRun t).toConnObs (ConnStep.send meth p) := by
    rw [connRun_append_single, connStep_obs]
  have hsend1 : (connRun (t ++ [ConnStep.send meth p])).obsLog
      = (connRun t).obsLog ++ [ObsEvent.rejectedClosed (connRun t).nCalls none] := by
    rw [hstate2]
    simp [pstep, hmidclosed]
  have hsend2 : (connRun (t ++ [ConnStep.send meth p])).nCalls
      = (connRun t).nCalls + 1 := by
    rw [hstate2]
    simp [pstep, hmidclosed]
  refine ⟨hsend1, ?_⟩
  intro i r hmem
  set c := (connRun t).nCalls with hc
  have invT := connInv_run t
  have hzero : settleCount (connRun t).obsLog c = 0
      ∧ pendCount (connRun t).pending c = 0 := by
    have hcnt := invT.count c
    rw [if_neg (Nat.lt_irrefl c)] at hcnt
    omega
  obtain ⟨rest, hrest⟩ := foldl_obsLog ext (connRun (t ++ [ConnStep.send meth p]))
  have hfin : (connRun (t ++ [ConnStep.send meth p] ++ ext)).obsLog
      = ((connRun t).obsLog ++ [ObsEvent.rejectedClosed c none]) ++ rest := by
    rw [connRun_append (t ++ [ConnStep.send meth p]) ext, hrest, hsend1]
  have invF := connInv_run (t ++ [ConnStep.send meth p] ++ ext)
  have hcnF : c + 1 ≤ (connRun (t ++ [ConnStep.send meth p] ++ ext)).nCalls := by
    rw [connRun_append (t ++ [ConnStep.send meth p]) ext]
    have h2 := foldl_nCalls ext (connRun (t ++ [ConnStep.send meth p]))
    omega
  have hcountF := invF.count c
  rw [hfin, if_pos (show c < (connRun (t ++ [ConnStep.send meth p] ++ ext)).nCalls by omega),
    settleCount_append, settleCount_append, settleCount_cons, settleCount_nil] at hcountF
  simp only [settleOf_rejectedClosed, beq_self_eq_true, if_true] at hcountF
  rw [hfin] at hmem
  rcases List.mem_append.mp hmem with hmem | hmem
  · rcases List.mem_append.mp hmem with hmem | hmem
    · have hpos := @settleCount_pos_of_mem α _ _ c hmem (by simp)
      omega
    · simp at hmem
  · have hpos := @settleCount_pos_of_mem α _ _ c hmem (by simp)
    omega

def c4Trace : List (ConnStep Nat) :=
  [ConnStep.send "Page.enable" none, ConnStep.send "Page.navigate" (some 9)]

theorem connection_close_rejects_and_fails_sends_witness :
    ((connRun (c4Trace ++ [ConnStep.close])).obsLog
        = (connRun c4Trace).obsLog
          ++ (connRun c4Trace).pending.map
              (fun pc => ObsEvent.rejectedClosed pc.callIdx (some pc.id))
      ∧ (connRun (c4Trace ++ [ConnStep.close])).pending = []
      ∧ (connRun (c4Trace ++ [ConnStep.close])).closed = true)
    ∧ ((connRun (c4Trace ++ [ConnStep.close] ++ [] ++ [ConnStep.send "Page.reload" none])).obsLog
        = (connRun (c4Trace ++ [ConnStep.close] ++ [])).obsLog
          ++ [ObsEvent.rejectedClosed (connRun (c4Trace ++ [ConnStep.close] ++ [])).nCalls none]
      ∧ ∀ i r, ObsEvent.resolved (connRun (c4Trace ++ [ConnStep.close] ++ [])).nCalls i r
          ∉ (connRun (c4Trace ++ [ConnStep.close] ++ []
              ++ [ConnStep.send "Page.reload" none]
              ++ [ConnStep.inbound ⟨some 0, none, some 3, none, none⟩])).obsLog) :=
  connection_close_rejects_and_fails_sends Nat c4Trace []
    [ConnStep.inbound ⟨some 0, none, some 3, none, none⟩] "Page.reload" none (by decide)

/-- C5: two runs whose stimulus traces agree after erasing every
`setLoggingMode` step — in particular two runs differing only in logging
toggles made at any points — end in identical observable states: the same
id assignments, pending table, registry, lifecycle flag and the same
observable log (settlement values and order, handler invocations and order).
Logging never interferes with correlation or dispatch. -/
theorem connection_logging_noninterference (α : Type) (tr₁ tr₂ : List (ConnStep α))
    (h : eraseLogging tr₁ = eraseLogging tr₂) :
    (connRun tr₁).toConnObs = (connRun tr₂).toConnObs := by
  rw [connRun_obsErase, connRun_obsErase, h]

def c5TraceA : List (ConnStep Nat) :=
  [ConnStep.setLoggingMode true, ConnStep.send "Page.enable" none,
   ConnStep.setLoggingMode false,
   ConnStep.inbound ⟨some 0, none, some 2, none, none⟩]

def c5TraceB : List (ConnStep Nat) :=
  [ConnStep.send "Page.enable" none,
   ConnStep.inbound ⟨some 0, none, some 2, none, none⟩]

theorem connection_logging_noninterference_witness :
    (connRun c5TraceA).toConnObs = (connRun c5TraceB).toConnObs :=
  connection_logging_noninterference Nat c5TraceA c5TraceB (by decide)



/-- C6: a viewport size change leaves the state untouched and sends, in
order, `Page.stopScreencast` and then `Page.setDeviceMetricsOverride` with
deviceScaleFactor 2, floored height, mobile false and floored width; the
continuation run when that call's promise resolves stores the raw width and
height into `viewportMetadata` and only then sends `Page.startScreencast`
with format jpeg, maxWidth the floor of width times the device pixel ratio
and maxHeight the floor of height times the device pixel ratio. -/
theorem viewport_size_change_commands (dpr : ℚ) (data : ViewportEventData)
    (s : AppState) :
    onViewportChanged "size" data s
      = (s, [Cmd.pageStopScreencast,
             Cmd.pageSetDeviceMetricsOverride 2 ⌊data.height⌋ false ⌊data.width⌋],
         SizeContinuation.afterMetricsOverride data.width data.height)
    ∧ runSizeContinuation dpr
        (SizeContinuation.afterMetricsOverride data.width data.height) s
      = ({ s with viewportMetadata :=
            { s.viewportMetadata with width := data.width, height := data.height } },
         [Cmd.pageStartScreencast "jpeg" ⌊data.width * dpr⌋ ⌊data.height * dpr⌋]) :=
  ⟨rfl, rfl⟩

/-- C7: the `urlChange` toolbar action sends exactly one `Page.navigate`
with the payload url and stores that url into the state; `forward`,
`backward` and `refresh` send `Page.goForward`, `Page.goBackward` and
`Page.reload` respectively, with no parameters and no state change. -/
theorem toolbar_actions_commands (data : ToolbarEventData) (s : AppState) :
    onToolbarActionInvoked "urlChange" data s
      = ({ s with url := data.url }, [Cmd.pageNavigate data.url])
    ∧ onToolbarActionInvoked "forward" data s = (s, [Cmd.pageGoForward])
    ∧ onToolbarActionInvoked "backward" data s = (s, [Cmd.pageGoBackward])
    ∧ onToolbarActionInvoked "refresh" data s = (s, [Cmd.pageReload]) :=
  ⟨rfl, rfl, rfl, rfl⟩

/-- C8: the `Page.screencastFrame` handler sends exactly one
`Page.screencastFrameAck` carrying the same session id as the received
frame, stores the frame data and metadata into `state.frame`, and leaves
every other state field unchanged. -/
theorem screencast_frame_ack_and_store (p : ScreencastFramePayload) (s : AppState) :
    (onScreencastFrame p s).2 = [Cmd.pageScreencastFrameAck p.sessionId]
    ∧ (onScreencastFrame p s).1.frame
        = some { base64Data := p.data, metadata := p.metadata }
    ∧ (onScreencastFrame p s).1.url = s.url
    ∧ (onScreencastFrame p s).1.verbose = s.verbose
    ∧ (onScreencastFrame p s).1.viewportMetadata = s.viewportMetadata
    ∧ (onScreencastFrame p s).1.history = s.history :=
  ⟨rfl, rfl, rfl, rfl, rfl, rfl⟩

/-- C9 fails as stated: for the history entry url consisting of the bare
prefix, the code's regular expression does not match (the capture group
needs at least one following character), so the url is stored unchanged,
while the claim's unconditional prefix removal would store the empty
string. -/
theorem nav_history_strip_counterexample :
    (requestNavigationHistoryResolved
        (some ⟨0, [⟨"http://", "t"⟩]⟩) appInitialState).1.url
      ≠ claimedStripHttp "http://" := by decide

/-- C9 (amended): when `Page.getNavigationHistory` resolves with a truthy
payload whose currentIndex addresses an entry, the App stores that entry's
url rewritten by the source's regular expression — the leading `http://` is
removed only when at least one non-line-terminator character follows it, and
only the run of such characters is kept; otherwise the url is unchanged —
sets canGoBack to currentIndex equal zero and canGoForward to currentIndex
equal entries.length minus one, leaves the other fields unchanged, and sends
exactly one `extension.updateTitle` whose title wraps the entry's title, or
its unstripped url when the title is empty, in `Browser Preview (...)`. -/
theorem nav_history_update (h : NavHistoryPayload) (s : AppState) (e : NavEntry)
    (he : h.entries.get? h.currentIndex = some e) :
    (requestNavigationHistoryResolved (some h) s).1.url = stripHttp e.url
    ∧ (requestNavigationHistoryResolved (some h) s).1.history.canGoBack
        = (h.currentIndex == 0)
    ∧ (requestNavigationHistoryResolved (some h) s).1.history.canGoForward
        = (h.currentIndex == h.entries.length - 1)
    ∧ (requestNavigationHistoryResolved (some h) s).1.frame = s.frame
    ∧ (requestNavigationHistoryResolved (some h) s).1.verbose = s.verbose
    ∧ (requestNavigationHistoryResolved (some h) s).1.viewportMetadata
        = s.viewportMetadata
    ∧ (requestNavigationHistoryResolved (some h) s).2
        = [Cmd.extensionUpdateTitle
            ("Browser Preview (" ++ (if e.title = "" then e.url else e.title) ++ ")")] := by
  rw [List.get?_eq_getElem?] at he
  simp [requestNavigationHistoryResolved, he]

def c9Payload : NavHistoryPayload := ⟨0, [⟨"http://x", ""⟩]⟩

theorem nav_history_update_witness :
    (requestNavigationHistoryResolved (some c9Payload) appInitialState).1.url
        = stripHttp "http://x"
    ∧ (requestNavigationHistoryResolved (some c9Payload) appInitialState).1.history.canGoBack
        = (c9Payload.currentIndex == 0)
    ∧ (requestNavigationHistoryResolved (some c9Payload) appInitialState).1.history.canGoForward
        = (c9Payload.currentIndex == c9Payload.entries.length - 1)
    ∧ (requestNavigationHistoryResolved (some c9Payload) appInitialState).1.frame
        = appInitialState.frame
    ∧ (requestNavigationHistoryResolved (some c9Payload) appInitialState).1.verbose
        = appInitialState.verbose
    ∧ (requestNavigationHistoryResolved (some c9Payload) appInitialState).1.viewportMetadata
        = appInitialState.viewportMetadata
    ∧ (requestNavigationHistoryResolved (some c9Payload) appInitialState).2
        = [Cmd.extensionUpdateTitle
            ("Browser Preview ("
              ++ (if ("" : String) = "" then "http://x" else "") ++ ")")] :=
  nav_history_update c9Payload appInitialState ⟨"http://x", ""⟩ (by decide)

/-- C10: a `Page.frameNavigated` event whose frame has a truthy parentId (a
subframe navigation) leaves the state unchanged and sends nothing; when the
parentId is absent or falsy the handler sends `Page.getNavigationHistory`
and only sets `isLoading` to true and `loadingPercent` to one tenth, keeping
every other state field as it was. -/
theorem frame_navigated_effect (s : AppState) (pid : String) (f : FrameInfo)
    (hp : pid ≠ "") :
    onFrameNavigated ⟨some pid⟩ s = (s, [])
    ∧ (f.parentId = none ∨ f.parentId = some "" →
        onFrameNavigated f s
          = ({ s with viewportMetadata :=
                { s.viewportMetadata with isLoading := true, loadingPercent := 1/10 } },
             [Cmd.pageGetNavigationHistory])) := by
  constructor
  · have hm : isMainFrame ⟨some pid⟩ = false := by
      simp [isMainFrame, hp]
    simp [onFrameNavigated, hm]
  · intro hf
    have hm : isMainFrame f = true := by
      rcases hf with hf | hf <;> simp [isMainFrame, hf]
    simp [onFrameNavigated, hm]

theorem frame_navigated_effect_witness :
    onFrameNavigated ⟨some "child"⟩ appInitialState = (appInitialState, [])
    ∧ onFrameNavigated ⟨none⟩ appInitialState
        = ({ appInitialState with viewportMetadata :=
              { appInitialState.viewportMetadata with
                  isLoading := true, loadingPercent := 1/10 } },
           [Cmd.pageGetNavigationHistory]) :=
  ⟨(frame_navigated_effect appInitialState "child" ⟨none⟩ (by decide)).1,
   (frame_navigated_effect appInitialState "child" ⟨none⟩ (by decide)).2 (Or.inl rfl)⟩
